import Mathlib

/-!
Verification of the dependency-graph engine and issue-lifecycle service of the
weaver issue tracker (`src/weaver/models.py`, `src/weaver/graph.py`,
`src/weaver/service.py`), via a shallow embedding.

Modelling conventions:
* `datetime` values are abstract timestamps, embedded as `Nat`; each service
  operation takes the current time as an explicit `now` parameter (Python reads
  it from `datetime.now()`).
* Python `dict[str, set[str]]` with `.get(k, set())` access is embedded as a
  total function `String → Finset String` that is `∅` off the dict's key set.
  A Python dict is finite; the extra `univ` field of `DependencyGraph` records
  a finite carrier containing every key and every member of every value set,
  which is what bounds the traversals below (their fuel arguments).
* The markdown storage keeps one file per issue id; it is embedded as a
  `List Issue` where `write_issue` upserts by id and `read_issue` is a lookup.
-/

namespace Weaver

/-- Issue lifecycle status, from `models.Status`. -/
inductive Status where
  | OPEN
  | IN_PROGRESS
  | BLOCKED
  | CLOSED
deriving DecidableEq, Repr

/-- The `Issue` dataclass from `models.py`.  `datetime` fields are abstract
`Nat` timestamps; `content_hash` (a derived property) is omitted. -/
structure Issue where
  id : String
  title : String
  status : Status := Status.OPEN
  priority : Nat := 2
  description : String := ""
  design_notes : String := ""
  acceptance_criteria : List String := []
  labels : List String := []
  blocked_by : List String := []
  parent : Option String := none
  created_at : Nat := 0
  updated_at : Nat := 0
  closed_at : Option Nat := none
deriving DecidableEq, Repr

/-- `Issue.is_open`: status is one of OPEN, IN_PROGRESS, BLOCKED. -/
def Issue.is_open (i : Issue) : Bool :=
  i.status = Status.OPEN ∨ i.status = Status.IN_PROGRESS ∨ i.status = Status.BLOCKED

/-- The `DependencyGraph` dataclass from `graph.py`: `blocked_by` maps an issue
id to the set of ids blocking it, `blocks` is the inverse index, `all_ids` is
every issue id seen at build time.  `univ` is the extra finiteness carrier
described in the module docstring (every key and value of the two dicts is
kept inside it); it has no counterpart in the Python dataclass and is read
only by the fuel bounds of the traversals. -/
structure DependencyGraph where
  blocked_by : String → Finset String
  blocks : String → Finset String
  all_ids : Finset String
  univ : Finset String

namespace DependencyGraph

/-- The empty maps the `build` loop starts from (`defaultdict(set)`s). -/
def empty : DependencyGraph :=
  { blocked_by := fun _ => ∅, blocks := fun _ => ∅, all_ids := ∅, univ := ∅ }

/-- One iteration of the inner loop of `build`: record the edge
`blocker_id → issue_id` in both adjacency maps. -/
def addEdge (g : DependencyGraph) (issue_id blocker_id : String) : DependencyGraph where
  blocked_by := fun x => if x = issue_id then insert blocker_id (g.blocked_by x) else g.blocked_by x
  blocks := fun x => if x = blocker_id then insert issue_id (g.blocks x) else g.blocks x
  all_ids := g.all_ids
  univ := insert issue_id (insert blocker_id g.univ)

/-- One iteration of the outer loop of `build`: add the issue's id to
`all_ids` and record each of its `blocked_by` edges. -/
def addIssue (g : DependencyGraph) (issue : Issue) : DependencyGraph :=
  issue.blocked_by.foldl (fun g' b => addEdge g' issue.id b)
    { g with all_ids := insert issue.id g.all_ids, univ := insert issue.id g.univ }

/-- `DependencyGraph.build`: fold the two-level loop over the issue list. -/
def build (issues : List Issue) : DependencyGraph :=
  issues.foldl addIssue empty

/-- `is_blocked`: the issue's blocker set meets the supplied open-id set. -/
def is_blocked (g : DependencyGraph) (issue_id : String) (open_ids : Finset String) : Bool :=
  g.blocked_by issue_id ∩ open_ids ≠ ∅

/-- `get_unblocked`: open issues that are not status-BLOCKED and not blocked
by any open issue of the input list. -/
def get_unblocked (g : DependencyGraph) (open_issues : List Issue) : List Issue :=
  let open_ids : Finset String :=
    ((open_issues.filter (fun i => i.is_open)).map (fun i => i.id)).toFinset
  open_issues.filter (fun issue =>
    issue.is_open && !(issue.status = Status.BLOCKED : Bool)
      && !(g.is_blocked issue.id open_ids))

/-- `get_blockers`: ids of issues blocking the given issue (the Python
`.copy()` of the set is the identity here). -/
def get_blockers (g : DependencyGraph) (issue_id : String) : Finset String :=
  g.blocked_by issue_id

/-- `get_blocked_by_this`: ids of issues blocked by the given issue. -/
def get_blocked_by_this (g : DependencyGraph) (issue_id : String) : Finset String :=
  g.blocks issue_id

end DependencyGraph

/-- One step along a `blocked_by` edge: from an issue to one of its blockers.
This is exactly the step the `detect_cycle` walk and the
`get_transitive_blockers` traversal take. -/
def gStep (g : DependencyGraph) (a b : String) : Prop :=
  b ∈ g.blocked_by a

/-- Reachability along `blocked_by` edges (reflexive-transitive closure of
`gStep`). -/
def Reach (g : DependencyGraph) (a b : String) : Prop :=
  Relation.ReflTransGen (gStep g) a b

/-- A graph whose edge targets all lie inside its `univ` carrier.  Every graph
that models a finite Python dict satisfies this, and `build` always produces
such a graph (`build_closed`). -/
def GraphClosed (g : DependencyGraph) : Prop :=
  ∀ x : String, g.blocked_by x ⊆ g.univ

section BuildCharacterization

open DependencyGraph

lemma addEdge_blocked_by_mem {g : DependencyGraph} {iid bl : String} (b x : String) :
    b ∈ (addEdge g iid bl).blocked_by x ↔ b ∈ g.blocked_by x ∨ (x = iid ∧ b = bl) := by
  unfold addEdge
  by_cases h : x = iid <;> simp [h] <;> tauto

lemma addEdge_blocks_mem {g : DependencyGraph} {iid bl : String} (y x : String) :
    y ∈ (addEdge g iid bl).blocks x ↔ y ∈ g.blocks x ∨ (x = bl ∧ y = iid) := by
  unfold addEdge
  by_cases h : x = bl <;> simp [h] <;> tauto

lemma addEdge_all_ids {g : DependencyGraph} {iid bl : String} :
    (addEdge g iid bl).all_ids = g.all_ids := rfl

lemma foldl_addEdge_blocked_by_mem (iid : String) (l : List String)
    (g : DependencyGraph) (b x : String) :
    b ∈ (l.foldl (fun g' bl => addEdge g' iid bl) g).blocked_by x ↔
      b ∈ g.blocked_by x ∨ (x = iid ∧ b ∈ l) := by
  induction l generalizing g with
  | nil => simp
  | cons hd tl ih =>
    simp only [List.foldl_cons, ih, addEdge_blocked_by_mem, List.mem_cons]
    tauto

lemma foldl_addEdge_blocks_mem (iid : String) (l : List String)
    (g : DependencyGraph) (y x : String) :
    y ∈ (l.foldl (fun g' bl => addEdge g' iid bl) g).blocks x ↔
      y ∈ g.blocks x ∨ (y = iid ∧ x ∈ l) := by
  induction l generalizing g with
  | nil => simp
  | cons hd tl ih =>
    simp only [List.foldl_cons, ih, addEdge_blocks_mem, List.mem_cons]
    tauto

lemma foldl_addEdge_all_ids (iid : String) (l : List String) (g : DependencyGraph) :
    (l.foldl (fun g' bl => addEdge g' iid bl) g).all_ids = g.all_ids := by
  induction l generalizing g with
  | nil => rfl
  | cons hd tl ih => simp [ih, addEdge_all_ids]

lemma addIssue_blocked_by_mem (g : DependencyGraph) (i : Issue) (b x : String) :
    b ∈ (addIssue g i).blocked_by x ↔ b ∈ g.blocked_by x ∨ (x = i.id ∧ b ∈ i.blocked_by) := by
  unfold addIssue
  rw [foldl_addEdge_blocked_by_mem]

lemma addIssue_blocks_mem (g : DependencyGraph) (i : Issue) (y x : String) :
    y ∈ (addIssue g i).blocks x ↔ y ∈ g.blocks x ∨ (y = i.id ∧ x ∈ i.blocked_by) := by
  unfold addIssue
  rw [foldl_addEdge_blocks_mem]

lemma addIssue_all_ids (g : DependencyGraph) (i : Issue) :
    (addIssue g i).all_ids = insert i.id g.all_ids := by
  unfold addIssue
  rw [foldl_addEdge_all_ids]

lemma foldl_addIssue_blocked_by_mem (issues : List Issue) (g : DependencyGraph) (b x : String) :
    b ∈ (issues.foldl addIssue g).blocked_by x ↔
      b ∈ g.blocked_by x ∨ ∃ i ∈ issues, i.id = x ∧ b ∈ i.blocked_by := by
  induction issues generalizing g with
  | nil => simp
  | cons hd tl ih =>
    simp only [List.foldl_cons, ih, addIssue_blocked_by_mem, List.mem_cons]
    constructor
    · rintro ((h | ⟨rfl, hb⟩) | ⟨i, hi, rfl, hb⟩)
      · exact Or.inl h
      · exact Or.inr ⟨hd, Or.inl rfl, rfl, hb⟩
      · exact Or.inr ⟨i, Or.inr hi, rfl, hb⟩
    · rintro (h | ⟨i, (rfl | hi), rfl, hb⟩)
      · exact Or.inl (Or.inl h)
      · exact Or.inl (Or.inr ⟨rfl, hb⟩)
      · exact Or.inr ⟨i, hi, rfl, hb⟩

lemma foldl_addIssue_blocks_mem (issues : List Issue) (g : DependencyGraph) (y x : String) :
    y ∈ (issues.foldl addIssue g).blocks x ↔
      y ∈ g.blocks x ∨ ∃ i ∈ issues, i.id = y ∧ x ∈ i.blocked_by := by
  induction issues generalizing g with
  | nil => simp
  | cons hd tl ih =>
    simp only [List.foldl_cons, ih, addIssue_blocks_mem, List.mem_cons]
    constructor
    · rintro ((h | ⟨rfl, hb⟩) | ⟨i, hi, rfl, hb⟩)
      · exact Or.inl h
      · exact Or.inr ⟨hd, Or.inl rfl, rfl, hb⟩
      · exact Or.inr ⟨i, Or.inr hi, rfl, hb⟩
    · rintro (h | ⟨i, (rfl | hi), rfl, hb⟩)
      · exact Or.inl (Or.inl h)
      · exact Or.inl (Or.inr ⟨rfl, hb⟩)
      · exact Or.inr ⟨i, hi, rfl, hb⟩

lemma foldl_addIssue_all_ids (issues : List Issue) (g : DependencyGraph) (x : String) :
    x ∈ (issues.foldl addIssue g).all_ids ↔ x ∈ g.all_ids ∨ ∃ i ∈ issues, i.id = x := by
  induction issues generalizing g with
  | nil => simp
  | cons hd tl ih =>
    simp only [List.foldl_cons, ih, addIssue_all_ids, Finset.mem_insert, List.mem_cons]
    constructor
    · rintro ((rfl | h) | ⟨i, hi, rfl⟩)
      · exact Or.inr ⟨hd, Or.inl rfl, rfl⟩
      · exact Or.inl h
      · exact Or.inr ⟨i, Or.inr hi, rfl⟩
    · rintro (h | ⟨i, (rfl | hi), rfl⟩)
      · exact Or.inl (Or.inr h)
      · exact Or.inl (Or.inl rfl)
      · exact Or.inr ⟨i, hi, rfl⟩

/-- Membership in `blocked_by` after `build`: exactly the edges contributed by
the issues of the input list. -/
lemma build_blocked_by_mem (issues : List Issue) (b x : String) :
    b ∈ (build issues).blocked_by x ↔ ∃ i ∈ issues, i.id = x ∧ b ∈ i.blocked_by := by
  unfold build
  rw [foldl_addIssue_blocked_by_mem]
  simp [DependencyGraph.empty]

/-- Membership in `blocks` after `build`. -/
lemma build_blocks_mem (issues : List Issue) (y x : String) :
    y ∈ (build issues).blocks x ↔ ∃ i ∈ issues, i.id = y ∧ x ∈ i.blocked_by := by
  unfold build
  rw [foldl_addIssue_blocks_mem]
  simp [DependencyGraph.empty]

/-- Membership in `all_ids` after `build`. -/
lemma build_all_ids_mem (issues : List Issue) (x : String) :
    x ∈ (build issues).all_ids ↔ ∃ i ∈ issues, i.id = x := by
  unfold build
  rw [foldl_addIssue_all_ids]
  simp [DependencyGraph.empty]

lemma addEdge_univ_closed {g : DependencyGraph} {iid bl : String} (h : GraphClosed g) :
    GraphClosed (addEdge g iid bl) := by
  intro x b hb
  rw [addEdge_blocked_by_mem] at hb
  unfold DependencyGraph.addEdge
  rcases hb with hb | ⟨rfl, rfl⟩
  · exact Finset.mem_insert_of_mem (Finset.mem_insert_of_mem (h x hb))
  · exact Finset.mem_insert_of_mem (Finset.mem_insert_self _ _)

lemma foldl_addEdge_univ_closed (iid : String) (l : List String) (g : DependencyGraph)
    (h : GraphClosed g) :
    GraphClosed (l.foldl (fun g' bl => addEdge g' iid bl) g) := by
  induction l generalizing g with
  | nil => exact h
  | cons hd tl ih => exact ih _ (addEdge_univ_closed h)

lemma addIssue_univ_closed (g : DependencyGraph) (i : Issue) (h : GraphClosed g) :
    GraphClosed (addIssue g i) := by
  unfold DependencyGraph.addIssue
  apply foldl_addEdge_univ_closed
  intro x b hb
  exact Finset.mem_insert_of_mem (h x hb)

/-- Graphs produced by `build` keep all their edge targets inside `univ`. -/
lemma build_closed (issues : List Issue) : GraphClosed (build issues) := by
  unfold build
  induction issues using List.reverseRecOn with
  | nil => intro x b hb; simp [DependencyGraph.empty] at hb
  | append_singleton tl i ih =>
    rw [List.foldl_append, List.foldl_cons, List.foldl_nil]
    exact addIssue_univ_closed _ _ ih

end BuildCharacterization

section GetUnblocked

open DependencyGraph

/-- The open-id set `get_unblocked` computes from its input list. -/
lemma mem_open_ids (open_issues : List Issue) (b : String) :
    b ∈ ((open_issues.filter (fun i => i.is_open)).map (fun i => i.id)).toFinset ↔
      ∃ j ∈ open_issues, j.is_open = true ∧ j.id = b := by
  simp only [List.mem_toFinset, List.mem_map, List.mem_filter]
  constructor
  · rintro ⟨j, ⟨hj, hopen⟩, rfl⟩
    exact ⟨j, hj, hopen, rfl⟩
  · rintro ⟨j, hj, hopen, rfl⟩
    exact ⟨j, ⟨hj, hopen⟩, rfl⟩

/-- Membership in `get_unblocked`, for an arbitrary graph: the three filter
conditions of the list comprehension. -/
lemma mem_get_unblocked (g : DependencyGraph) (open_issues : List Issue) (issue : Issue) :
    issue ∈ g.get_unblocked open_issues ↔
      issue ∈ open_issues ∧ issue.is_open = true ∧ issue.status ≠ Status.BLOCKED ∧
        ∀ b ∈ g.blocked_by issue.id,
          ¬ ∃ j ∈ open_issues, j.is_open = true ∧ j.id = b := by
  unfold DependencyGraph.get_unblocked
  simp only [List.mem_filter, Bool.and_eq_true, Bool.not_eq_true', decide_eq_false_iff_not]
  constructor
  · rintro ⟨hmem, ⟨⟨hopen, hnb⟩, hblk⟩⟩
    refine ⟨hmem, hopen, by simpa using hnb, ?_⟩
    intro b hb hex
    rw [← mem_open_ids] at hex
    unfold DependencyGraph.is_blocked at hblk
    simp only [decide_not, Bool.not_eq_false', decide_eq_true_eq] at hblk
    have : b ∈ g.blocked_by issue.id ∩ _ := Finset.mem_inter.2 ⟨hb, hex⟩
    rw [hblk] at this
    exact absurd this (Finset.not_mem_empty b)
  · rintro ⟨hmem, hopen, hnb, hblk⟩
    refine ⟨hmem, ⟨⟨hopen, by simpa using hnb⟩, ?_⟩⟩
    unfold DependencyGraph.is_blocked
    simp only [decide_not, Bool.not_eq_false', decide_eq_true_eq]
    apply Finset.eq_empty_of_forall_not_mem
    intro b hb
    rw [Finset.mem_inter, mem_open_ids] at hb
    exact hblk b hb.1 hb.2

/-- C1, stated over the blocker set recorded in the graph that `build`
derives from the same list (with ids unique, this is exactly the issue's own
`blocked_by` attribute; see `get_unblocked_build_iff`). -/
lemma get_unblocked_build_iff (issues : List Issue) (issue : Issue)
    (hnodup : (issues.map Issue.id).Nodup) (hmem : issue ∈ issues) :
    issue ∈ (build issues).get_unblocked issues ↔
      issue.is_open = true ∧ issue.status ≠ Status.BLOCKED ∧
        ∀ b ∈ issue.blocked_by, ¬ ∃ j ∈ issues, j.is_open = true ∧ j.id = b := by
  rw [mem_get_unblocked]
  have hbb : ∀ b : String,
      b ∈ (build issues).blocked_by issue.id ↔ b ∈ issue.blocked_by := by
    intro b
    rw [build_blocked_by_mem]
    constructor
    · rintro ⟨i, hi, hid, hb⟩
      have : i = issue := List.inj_on_of_nodup_map hnodup hi hmem hid
      exact this ▸ hb
    · intro hb
      exact ⟨issue, hmem, rfl, hb⟩
  constructor
  · rintro ⟨_, hopen, hnb, hblk⟩
    exact ⟨hopen, hnb, fun b hb => hblk b ((hbb b).2 hb)⟩
  · rintro ⟨hopen, hnb, hblk⟩
    exact ⟨hmem, hopen, hnb, fun b hb => hblk b ((hbb b).1 hb)⟩

end GetUnblocked

section DetectCycle

open DependencyGraph

/-- Character-list lexicographic comparison, written with structural
recursion so that concrete instances evaluate inside the kernel (the
library's `String` order goes through opaque byte-level functions that do
not reduce). -/
def strLeB : List Char → List Char → Bool
  | [], _ => true
  | _ :: _, [] => false
  | a :: as, b :: bs =>
    if a < b then true
    else if b < a then false
    else strLeB as bs

lemma strLeB_cons_iff {a b : Char} {as bs : List Char} :
    strLeB (a :: as) (b :: bs) = true ↔ a < b ∨ (a = b ∧ strLeB as bs = true) := by
  by_cases h1 : a < b
  · simp [strLeB, h1]
  · by_cases h2 : b < a
    · simp only [strLeB, if_neg h1, if_pos h2]
      constructor
      · intro h; exact absurd h (by simp)
      · rintro (h | ⟨rfl, -⟩)
        · exact absurd h h1
        · exact absurd h2 (lt_irrefl _)
    · have hab : a = b := le_antisymm (not_lt.1 h2) (not_lt.1 h1)
      simp [strLeB, h1, h2, hab]

lemma strLeB_total : ∀ x y : List Char, strLeB x y = true ∨ strLeB y x = true
  | [], _ => Or.inl rfl
  | _ :: _, [] => Or.inr rfl
  | a :: as, b :: bs => by
    rcases lt_trichotomy a b with h | h | h
    · exact Or.inl (strLeB_cons_iff.2 (Or.inl h))
    · rcases strLeB_total as bs with ih | ih
      · exact Or.inl (strLeB_cons_iff.2 (Or.inr ⟨h, ih⟩))
      · exact Or.inr (strLeB_cons_iff.2 (Or.inr ⟨h.symm, ih⟩))
    · exact Or.inr (strLeB_cons_iff.2 (Or.inl h))

lemma strLeB_trans : ∀ x y z : List Char,
    strLeB x y = true → strLeB y z = true → strLeB x z = true
  | [], _, _, _, _ => rfl
  | _ :: _, [], _, h, _ => by simp [strLeB] at h
  | _ :: _, _ :: _, [], _, h => by simp [strLeB] at h
  | a :: as, b :: bs, c :: cs, h1, h2 => by
    rcases strLeB_cons_iff.1 h1 with h1' | ⟨rfl, h1'⟩
    · rcases strLeB_cons_iff.1 h2 with h2' | ⟨rfl, h2'⟩
      · exact strLeB_cons_iff.2 (Or.inl (lt_trans h1' h2'))
      · exact strLeB_cons_iff.2 (Or.inl h1')
    · rcases strLeB_cons_iff.1 h2 with h2' | ⟨rfl, h2'⟩
      · exact strLeB_cons_iff.2 (Or.inl h2')
      · exact strLeB_cons_iff.2 (Or.inr ⟨rfl, strLeB_trans as bs cs h1' h2'⟩)

lemma strLeB_antisymm : ∀ x y : List Char,
    strLeB x y = true → strLeB y x = true → x = y
  | [], [], _, _ => rfl
  | [], _ :: _, _, h => by simp [strLeB] at h
  | _ :: _, [], h, _ => by simp [strLeB] at h
  | a :: as, b :: bs, h1, h2 => by
    rcases strLeB_cons_iff.1 h1 with h1' | ⟨rfl, h1'⟩
    · rcases strLeB_cons_iff.1 h2 with h2' | ⟨rfl, h2'⟩
      · exact absurd h2' (lt_asymm h1')
      · exact absurd h1' (lt_irrefl _)
    · rcases strLeB_cons_iff.1 h2 with h2' | ⟨-, h2'⟩
      · exact absurd h2' (lt_irrefl _)
      · rw [strLeB_antisymm as bs h1' h2']

/-- The total string order used to fix a Python `set[str]`'s iteration
order. -/
def strle (a b : String) : Prop := strLeB a.data b.data = true

instance : DecidableRel strle := fun a b => instDecidableEqBool (strLeB a.data b.data) true

instance : IsTrans String strle :=
  ⟨fun a b c => strLeB_trans a.data b.data c.data⟩

instance : IsAntisymm String strle :=
  ⟨fun a b h1 h2 => by
    cases a
    cases b
    exact congrArg String.mk (strLeB_antisymm _ _ h1 h2)⟩

instance : IsTotal String strle :=
  ⟨fun a b => strLeB_total a.data b.data⟩

/-- Listing of a Python `set[str]` for iteration (`for x in s` /
`stack.extend(s)`).  Python's set iteration order is arbitrary; the embedding
fixes the lexicographic one. -/
def setList (s : Finset String) : List String :=
  s.sort strle

lemma mem_setList {s : Finset String} {a : String} : a ∈ setList s ↔ a ∈ s :=
  Finset.mem_sort _

lemma length_setList (s : Finset String) : (setList s).length = s.card :=
  Finset.length_sort _

/-- The while-loop of `detect_cycle`: pop `current` from the stack, succeed if
it equals `from_id`, skip it if already visited, otherwise mark it visited and
push its blockers.  The Python loop always terminates because the dicts are
finite; here that finiteness is the `fuel` argument, which `detect_cycle`
instantiates with a bound large enough that it never runs out
(`detectCycleAux_spec` shows the bound suffices). -/
def detectCycleAux (g : DependencyGraph) (from_id : String) :
    Nat → List String → Finset String → Bool
  | 0, _, _ => false
  | _ + 1, [], _ => false
  | fuel + 1, current :: rest, visited =>
    if current = from_id then true
    else if current ∈ visited then detectCycleAux g from_id fuel rest visited
    else detectCycleAux g from_id fuel
      (setList (g.blocked_by current) ++ rest) (insert current visited)

/-- `detect_cycle`: would adding the edge `from_id is-blocked-by to_id` create
a cycle?  DFS from `to_id` along `blocked_by` edges looking for `from_id`. -/
def DependencyGraph.detect_cycle (g : DependencyGraph) (from_id to_id : String) : Bool :=
  let u := insert to_id g.univ
  detectCycleAux g from_id (u.card * (u.card + 2) + 2) [to_id] ∅

/-- A set closed under `blocked_by` edges contains everything reachable from
any of its members. -/
lemma reach_mem_of_closed {g : DependencyGraph} {S : Finset String} {a b : String}
    (hreach : Reach g a b) (ha : a ∈ S)
    (hclosed : ∀ v ∈ S, ∀ n ∈ g.blocked_by v, n ∈ S) : b ∈ S := by
  induction hreach with
  | refl => exact ha
  | tail _ hstep ih => exact hclosed _ ih _ hstep

/-- Loop invariant proof for `detectCycleAux`: with enough fuel, a stack of
nodes reachable from `to_id`, and a visited set that is closed up to the
stack, the loop returns `true` exactly when `from_id` is reachable from
`to_id`. -/
lemma detectCycleAux_spec (g : DependencyGraph) (from_id to_id : String)
    (hcl : GraphClosed g) :
    ∀ (fuel : Nat) (stack : List String) (visited : Finset String),
      ((insert to_id g.univ \ visited).card * ((insert to_id g.univ).card + 2)
          + stack.length + 1 ≤ fuel) →
      (∀ x ∈ stack, x ∈ insert to_id g.univ) →
      (∀ x ∈ stack, Reach g to_id x) →
      from_id ∉ visited →
      (∀ v ∈ visited, ∀ n ∈ g.blocked_by v, n ∈ visited ∨ n ∈ stack) →
      (to_id ∈ visited ∨ to_id ∈ stack) →
      (detectCycleAux g from_id fuel stack visited = true ↔ Reach g to_id from_id) := by
  intro fuel
  induction fuel with
  | zero =>
    intro stack visited hfuel
    exact absurd hfuel (Nat.not_succ_le_zero _)
  | succ fuel ih =>
    intro stack visited hfuel hstackU hsound hfrom hclosed hto
    cases stack with
    | nil =>
      simp only [detectCycleAux, Bool.false_eq_true, false_iff]
      intro hreach
      have hto' : to_id ∈ visited := by
        rcases hto with h | h
        · exact h
        · exact absurd h (List.not_mem_nil to_id)
      have hcl' : ∀ v ∈ visited, ∀ n ∈ g.blocked_by v, n ∈ visited := by
        intro v hv n hn
        rcases hclosed v hv n hn with h | h
        · exact h
        · exact absurd h (List.not_mem_nil n)
      exact hfrom (reach_mem_of_closed hreach hto' hcl')
    | cons current rest =>
      by_cases hcur : current = from_id
      · subst hcur
        simp only [detectCycleAux, eq_self_iff_true, if_true, true_iff]
        exact hsound current (List.mem_cons_self current rest)
      · by_cases hvis : current ∈ visited
        · simp only [detectCycleAux, if_neg hcur, if_pos hvis]
          apply ih rest visited
          · simp only [List.length_cons] at hfuel; omega
          · intro x hx; exact hstackU x (List.mem_cons_of_mem _ hx)
          · intro x hx; exact hsound x (List.mem_cons_of_mem _ hx)
          · exact hfrom
          · intro v hv n hn
            rcases hclosed v hv n hn with h | h
            · exact Or.inl h
            · rcases List.mem_cons.1 h with rfl | h
              · exact Or.inl hvis
              · exact Or.inr h
          · rcases hto with h | h
            · exact Or.inl h
            · rcases List.mem_cons.1 h with rfl | h
              · exact Or.inl hvis
              · exact Or.inr h
        · simp only [detectCycleAux, if_neg hcur, if_neg hvis]
          have hcurU : current ∈ insert to_id g.univ :=
            hstackU current (List.mem_cons_self current rest)
          apply ih
          · -- fuel accounting: one node leaves the unvisited pool
            have hcard : (insert to_id g.univ \ insert current visited).card + 1 =
                (insert to_id g.univ \ visited).card := by
              have herase : insert to_id g.univ \ insert current visited =
                  (insert to_id g.univ \ visited).erase current := by
                ext a
                simp only [Finset.mem_sdiff, Finset.mem_insert, Finset.mem_erase]
                tauto
              rw [herase, Finset.card_erase_of_mem (Finset.mem_sdiff.2 ⟨hcurU, hvis⟩)]
              have hpos : 0 < (insert to_id g.univ \ visited).card :=
                Finset.card_pos.2 ⟨current, Finset.mem_sdiff.2 ⟨hcurU, hvis⟩⟩
              omega
            have hdeg : (setList (g.blocked_by current)).length ≤ (insert to_id g.univ).card := by
              rw [length_setList]
              exact Finset.card_le_card
                (fun a ha => Finset.mem_insert_of_mem (hcl current ha))
            simp only [List.length_append, List.length_cons] at hfuel ⊢
            set c0 := (insert to_id g.univ \ visited).card with hc0
            set c1 := (insert to_id g.univ \ insert current visited).card with hc1
            set K := (insert to_id g.univ).card with hK
            have hexp : c1 * (K + 2) + K + 2 = c0 * (K + 2) := by
              have h1 : c1 + 1 = c0 := hcard
              calc c1 * (K + 2) + K + 2 = (c1 + 1) * (K + 2) := by ring
              _ = c0 * (K + 2) := by rw [h1]
            nlinarith [hfuel, hdeg, hexp]
          · intro x hx
            rcases List.mem_append.1 hx with h | h
            · exact Finset.mem_insert_of_mem (hcl current (mem_setList.1 h))
            · exact hstackU x (List.mem_cons_of_mem _ h)
          · intro x hx
            rcases List.mem_append.1 hx with h | h
            · exact Relation.ReflTransGen.tail
                (hsound current (List.mem_cons_self current rest))
                (mem_setList.1 h)
            · exact hsound x (List.mem_cons_of_mem _ h)
          · intro h
            rcases Finset.mem_insert.1 h with rfl | h
            · exact hcur rfl
            · exact hfrom h
          · intro v hv n hn
            rcases Finset.mem_insert.1 hv with rfl | hv
            · exact Or.inr (List.mem_append.2 (Or.inl (mem_setList.2 hn)))
            · rcases hclosed v hv n hn with h | h
              · exact Or.inl (Finset.mem_insert_of_mem h)
              · rcases List.mem_cons.1 h with rfl | h
                · exact Or.inl (Finset.mem_insert_self _ _)
                · exact Or.inr (List.mem_append.2 (Or.inr h))
          · rcases hto with h | h
            · exact Or.inl (Finset.mem_insert_of_mem h)
            · rcases List.mem_cons.1 h with rfl | h
              · exact Or.inl (Finset.mem_insert_self _ _)
              · exact Or.inr (List.mem_append.2 (Or.inr h))

/-- `detect_cycle` decides reachability: it returns `true` iff `from_id` is
reachable from `to_id` along `blocked_by` edges (with `from_id = to_id`
counting as reachable). -/
lemma detect_cycle_iff (g : DependencyGraph) (hcl : GraphClosed g)
    (from_id to_id : String) :
    g.detect_cycle from_id to_id = true ↔ Reach g to_id from_id := by
  unfold DependencyGraph.detect_cycle
  apply detectCycleAux_spec g from_id to_id hcl
  · have hsub : insert to_id g.univ \ (∅ : Finset String) = insert to_id g.univ := by
      simp
    rw [hsub]
    simp only [List.length_cons, List.length_nil]
    exact Nat.le_of_eq (by ring)
  · intro x hx
    rcases List.mem_cons.1 hx with rfl | h
    · exact Finset.mem_insert_self _ _
    · exact absurd h (List.not_mem_nil x)
  · intro x hx
    rcases List.mem_cons.1 hx with rfl | h
    · exact Relation.ReflTransGen.refl
    · exact absurd h (List.not_mem_nil x)
  · exact Finset.not_mem_empty from_id
  · intro v hv; exact absurd hv (Finset.not_mem_empty v)
  · exact Or.inr (List.mem_cons_self to_id [])

/-- A self edge is always reported as a cycle. -/
lemma detect_cycle_self (g : DependencyGraph) (hcl : GraphClosed g) (a : String) :
    g.detect_cycle a a = true :=
  (detect_cycle_iff g hcl a a).2 Relation.ReflTransGen.refl

end DetectCycle

section TransitiveBlockers

open DependencyGraph

/-- The recursive `dfs` helper of `get_transitive_blockers`, processing a
worklist of nodes at one recursion level.  For each unvisited node the Python
function first recurses into all of the node's blockers and only then appends
the node itself (post-order), skipping the starting issue.  The state is the
`(visited, result)` pair the Python closure mutates.  As with
`detectCycleAux`, the `fuel` argument stands in for the finiteness of the
Python dicts and never runs out at the bound `get_transitive_blockers`
passes. -/
def dfsGo (g : DependencyGraph) (root : String) :
    Nat → List String → Finset String × List String → Finset String × List String
  | 0, _, st => st
  | _ + 1, [], st => st
  | fuel + 1, c :: cs, (visited, result) =>
    if c ∈ visited then dfsGo g root fuel cs (visited, result)
    else
      let st1 := dfsGo g root fuel (setList (g.blocked_by c)) (insert c visited, result)
      let st2 := if c = root then st1 else (st1.1, st1.2 ++ [c])
      dfsGo g root fuel cs st2

/-- `get_transitive_blockers`: all transitive blockers of `issue_id` in
post-order (dependencies before dependents), never including `issue_id`
itself. -/
def DependencyGraph.get_transitive_blockers (g : DependencyGraph) (issue_id : String) :
    List String :=
  let u := insert issue_id g.univ
  (dfsGo g issue_id (u.card * (u.card + 2) + 2) [issue_id] (∅, [])).2

/-- The ordering invariant of the DFS result list: every listed node's
blockers that are already listed appear strictly earlier; the others are
in-progress ancestors (`grey`) or the starting node. -/
def dfsInv (g : DependencyGraph) (root : String) (grey : Finset String)
    (R : List String) : Prop :=
  ∀ y ∈ R, ∀ b ∈ g.blocked_by y,
    (b ∈ R ∧ R.indexOf b < R.indexOf y) ∨ b ∈ grey ∨ b = root

/-- Full invariant proof for `dfsGo`.  `grey` is the set of ancestors whose
recursive calls are still in progress; the conclusions describe the final
`(visited, result)` state. -/
lemma dfsGo_spec (g : DependencyGraph) (root : String) (hcl : GraphClosed g)
    (hacyc : ∀ x, ¬ Relation.TransGen (gStep g) x x) :
    ∀ (fuel : Nat) (pending : List String) (V : Finset String) (R : List String)
      (grey : Finset String),
      ((insert root g.univ \ V).card * ((insert root g.univ).card + 2)
          + pending.length + 1 ≤ fuel) →
      (∀ p ∈ pending, p ∈ insert root g.univ) →
      (∀ x ∈ grey, x ∈ V) →
      (∀ x ∈ grey, x ∉ R) →
      (∀ gr ∈ grey, ∀ p ∈ pending, Reach g gr p) →
      (∀ y ∈ R, y ∈ V) →
      (∀ v ∈ V, v ∈ R ∨ v ∈ grey ∨ v = root) →
      R.Nodup →
      root ∉ R →
      dfsInv g root grey R →
      (∀ v ∈ V, v ∈ (dfsGo g root fuel pending (V, R)).1) ∧
      (∃ Δ, (dfsGo g root fuel pending (V, R)).2 = R ++ Δ ∧
        (∀ d ∈ Δ, d ∉ V) ∧ (∀ d ∈ Δ, ∃ p ∈ pending, Reach g p d) ∧
        (∀ d ∈ Δ, d ≠ root)) ∧
      (∀ p ∈ pending, p ∈ (dfsGo g root fuel pending (V, R)).1) ∧
      (∀ y ∈ (dfsGo g root fuel pending (V, R)).2, y ∈ (dfsGo g root fuel pending (V, R)).1) ∧
      (∀ x ∈ grey, x ∉ (dfsGo g root fuel pending (V, R)).2) ∧
      (∀ v ∈ (dfsGo g root fuel pending (V, R)).1,
        v ∈ (dfsGo g root fuel pending (V, R)).2 ∨ v ∈ grey ∨ v = root) ∧
      (dfsGo g root fuel pending (V, R)).2.Nodup ∧
      root ∉ (dfsGo g root fuel pending (V, R)).2 ∧
      dfsInv g root grey (dfsGo g root fuel pending (V, R)).2 := by
  intro fuel
  induction fuel with
  | zero =>
    intro pending V R grey hfuel
    exact absurd hfuel (Nat.not_succ_le_zero _)
  | succ fuel ih =>
    intro pending V R grey hfuel hpend hgreyV hgreyR hgreyReach hRV hVcat hnodup hroot hinv
    cases pending with
    | nil =>
      simp only [dfsGo]
      exact ⟨fun v hv => hv, ⟨[], by simp, by simp, by simp, by simp⟩,
        fun p hp => absurd hp (List.not_mem_nil p), hRV, hgreyR, hVcat, hnodup, hroot, hinv⟩
    | cons c cs =>
      have hcU : c ∈ insert root g.univ := hpend c (List.mem_cons_self c cs)
      by_cases hc : c ∈ V
      · -- already visited: skip
        simp only [dfsGo, if_pos hc]
        have ihr := ih cs V R grey
          (by simp only [List.length_cons] at hfuel; omega)
          (fun p hp => hpend p (List.mem_cons_of_mem _ hp))
          hgreyV hgreyR
          (fun gr hgr p hp => hgreyReach gr hgr p (List.mem_cons_of_mem _ hp))
          hRV hVcat hnodup hroot hinv
        obtain ⟨iC1, ⟨Δ, hΔeq, hΔV, hΔreach, hΔroot⟩, iC3, iC4, iC5, iC6, iC7, iC8, iC9⟩ := ihr
        refine ⟨iC1, ⟨Δ, hΔeq, hΔV, ?_, hΔroot⟩, ?_, iC4, iC5, iC6, iC7, iC8, iC9⟩
        · intro d hd
          obtain ⟨p, hp, hreach⟩ := hΔreach d hd
          exact ⟨p, List.mem_cons_of_mem _ hp, hreach⟩
        · intro p hp
          rcases List.mem_cons.1 hp with rfl | hp
          · exact iC1 p hc
          · exact iC3 p hp
      · -- first visit of c
        simp only [dfsGo, if_neg hc]
        -- fuel arithmetic preliminaries
        have hcard : (insert root g.univ \ insert c V).card + 1 =
            (insert root g.univ \ V).card := by
          have herase : insert root g.univ \ insert c V =
              (insert root g.univ \ V).erase c := by
            ext a
            simp only [Finset.mem_sdiff, Finset.mem_insert, Finset.mem_erase]
            tauto
          rw [herase, Finset.card_erase_of_mem (Finset.mem_sdiff.2 ⟨hcU, hc⟩)]
          have hpos : 0 < (insert root g.univ \ V).card :=
            Finset.card_pos.2 ⟨c, Finset.mem_sdiff.2 ⟨hcU, hc⟩⟩
          omega
        have hdeg : (setList (g.blocked_by c)).length ≤ (insert root g.univ).card := by
          rw [length_setList]
          exact Finset.card_le_card (fun a ha => Finset.mem_insert_of_mem (hcl c ha))
        -- the inner call on c's blockers, with c newly grey
        have ih1 := ih (setList (g.blocked_by c)) (insert c V) R (insert c grey)
          (by
            simp only [List.length_cons] at hfuel
            set c1 := (insert root g.univ \ insert c V).card with hc1
            set c0 := (insert root g.univ \ V).card with hc0
            set K := (insert root g.univ).card with hK
            have hexp : c1 * (K + 2) + K + 2 = c0 * (K + 2) := by
              calc c1 * (K + 2) + K + 2 = (c1 + 1) * (K + 2) := by ring
              _ = c0 * (K + 2) := by rw [hcard]
            nlinarith [hfuel, hdeg, hexp])
          (fun p hp => Finset.mem_insert_of_mem (hcl c (mem_setList.1 hp)))
          (by
            intro x hx
            rcases Finset.mem_insert.1 hx with rfl | hx
            · exact Finset.mem_insert_self _ _
            · exact Finset.mem_insert_of_mem (hgreyV x hx))
          (by
            intro x hx
            rcases Finset.mem_insert.1 hx with rfl | hx
            · exact fun hxR => hc (hRV x hxR)
            · exact hgreyR x hx)
          (by
            intro gr hgr p hp
            rcases Finset.mem_insert.1 hgr with rfl | hgr
            · exact Relation.ReflTransGen.single (mem_setList.1 hp)
            · exact (hgreyReach gr hgr c (List.mem_cons_self c cs)).trans
                (Relation.ReflTransGen.single (mem_setList.1 hp)))
          (fun y hy => Finset.mem_insert_of_mem (hRV y hy))
          (by
            intro v hv
            rcases Finset.mem_insert.1 hv with rfl | hv
            · exact Or.inr (Or.inl (Finset.mem_insert_self _ _))
            · rcases hVcat v hv with h | h | h
              · exact Or.inl h
              · exact Or.inr (Or.inl (Finset.mem_insert_of_mem h))
              · exact Or.inr (Or.inr h))
          hnodup hroot
          (by
            intro y hy b hb
            rcases hinv y hy b hb with h | h | h
            · exact Or.inl h
            · exact Or.inr (Or.inl (Finset.mem_insert_of_mem h))
            · exact Or.inr (Or.inr h))
        obtain ⟨jC1, ⟨Δ1, hΔ1eq, hΔ1V, hΔ1reach, hΔ1root⟩, jC3, jC4, jC5, jC6, jC7, jC8, jC9⟩ := ih1
        set st1 := dfsGo g root fuel (setList (g.blocked_by c)) (insert c V, R) with hst1
        -- facts before the continuation
        have hsubV1 : ∀ v ∈ V, v ∈ st1.1 := fun v hv => jC1 v (Finset.mem_insert_of_mem hv)
        have hcV1 : c ∈ st1.1 := jC1 c (Finset.mem_insert_self _ _)
        have hcR : c ∉ R := fun h => hc (hRV c h)
        have hcΔ1 : c ∉ Δ1 := fun h => hΔ1V c h (Finset.mem_insert_self _ _)
        have hcR1 : c ∉ st1.2 := by
          rw [hΔ1eq]
          intro h
          rcases List.mem_append.1 h with h | h
          · exact hcR h
          · exact hcΔ1 h
        have hcgrey : c ∉ grey := fun h => hc (hgreyV c h)
        have hfuel2 : ∀ (W : Finset String), (∀ v ∈ insert c V, v ∈ W) →
            (insert root g.univ \ W).card * ((insert root g.univ).card + 2)
              + cs.length + 1 ≤ fuel := by
          intro W hW
          simp only [List.length_cons] at hfuel
          have hmono : (insert root g.univ \ W).card ≤
              (insert root g.univ \ insert c V).card := by
            apply Finset.card_le_card
            intro a ha
            rw [Finset.mem_sdiff] at ha ⊢
            exact ⟨ha.1, fun hmem => ha.2 (hW a hmem)⟩
          set c2 := (insert root g.univ \ W).card with hc2
          set c1 := (insert root g.univ \ insert c V).card with hc1
          set c0 := (insert root g.univ \ V).card with hc0
          set K := (insert root g.univ).card with hK
          have hexp : c1 * (K + 2) + K + 2 = c0 * (K + 2) := by
            calc c1 * (K + 2) + K + 2 = (c1 + 1) * (K + 2) := by ring
            _ = c0 * (K + 2) := by rw [hcard]
          have hm2 : c2 * (K + 2) ≤ c1 * (K + 2) := Nat.mul_le_mul_right _ hmono
          nlinarith [hfuel, hexp, hm2]
        by_cases hcr : c = root
        · -- the starting node itself: not appended
          subst hcr
          simp only [eq_self_iff_true, if_true]
          have ih2 := ih cs st1.1 st1.2 grey
            (hfuel2 st1.1 jC1)
            (fun p hp => hpend p (List.mem_cons_of_mem _ hp))
            (fun x hx => hsubV1 x (hgreyV x hx))
            (fun x hx => jC5 x (Finset.mem_insert_of_mem hx))
            (fun gr hgr p hp => hgreyReach gr hgr p (List.mem_cons_of_mem _ hp))
            jC4
            (by
              intro v hv
              rcases jC6 v hv with h | h | h
              · exact Or.inl h
              · rcases Finset.mem_insert.1 h with rfl | h
                · exact Or.inr (Or.inr rfl)
                · exact Or.inr (Or.inl h)
              · exact Or.inr (Or.inr h))
            jC7 jC8
            (by
              intro y hy b hb
              rcases jC9 y hy b hb with h | h | h
              · exact Or.inl h
              · rcases Finset.mem_insert.1 h with rfl | h
                · exact Or.inr (Or.inr rfl)
                · exact Or.inr (Or.inl h)
              · exact Or.inr (Or.inr h))
          simp only [Prod.mk.eta] at ih2
          obtain ⟨kC1, ⟨Δ2, hΔ2eq, hΔ2V, hΔ2reach, hΔ2root⟩, kC3, kC4, kC5, kC6, kC7, kC8, kC9⟩ := ih2
          refine ⟨fun v hv => kC1 v (hsubV1 v hv),
            ⟨Δ1 ++ Δ2, ?_, ?_, ?_, ?_⟩, ?_, kC4, kC5, kC6, kC7, kC8, kC9⟩
          · rw [hΔ2eq, hΔ1eq, List.append_assoc]
          · intro d hd
            rcases List.mem_append.1 hd with hd | hd
            · exact fun hmem => hΔ1V d hd (Finset.mem_insert_of_mem hmem)
            · exact fun hmem => hΔ2V d hd (hsubV1 d hmem)
          · intro d hd
            rcases List.mem_append.1 hd with hd | hd
            · obtain ⟨p, hp, hreach⟩ := hΔ1reach d hd
              exact ⟨c, List.mem_cons_self _ _,
                (Relation.ReflTransGen.single (mem_setList.1 hp)).trans hreach⟩
            · obtain ⟨p, hp, hreach⟩ := hΔ2reach d hd
              exact ⟨p, List.mem_cons_of_mem _ hp, hreach⟩
          · intro d hd
            rcases List.mem_append.1 hd with hd | hd
            · exact hΔ1root d hd
            · exact hΔ2root d hd
          · intro p hp
            rcases List.mem_cons.1 hp with rfl | hp
            · exact kC1 p hcV1
            · exact kC3 p hp
        · -- append c after its blockers, then continue with the siblings
          simp only [if_neg hcr]
          have hnodup2 : (st1.2 ++ [c]).Nodup := by
            simp only [List.nodup_append, List.nodup_cons, List.not_mem_nil,
              not_false_iff, List.nodup_nil, and_true, true_and]
            constructor
            · exact jC7
            · intro a ha
              simp only [List.mem_singleton]
              intro rfl2
              exact hcR1 (rfl2 ▸ ha)
          have hinv2 : dfsInv g root grey (st1.2 ++ [c]) := by
            intro y hy b hb
            rcases List.mem_append.1 hy with hy | hy
            · -- a node finished inside the subtree of c
              rcases jC9 y hy b hb with hbef | hgrey' | hroot'
              · refine Or.inl ⟨List.mem_append_left _ hbef.1, ?_⟩
                rw [List.indexOf_append_of_mem hbef.1, List.indexOf_append_of_mem hy]
                exact hbef.2
              · rcases Finset.mem_insert.1 hgrey' with rfl | hgrey'
                · -- an edge back into the in-progress node c: a cycle
                  exfalso
                  rw [hΔ1eq] at hy
                  rcases List.mem_append.1 hy with hyR | hyΔ
                  · rcases hinv y hyR b hb with h | h | h
                    · exact hcR h.1
                    · exact hcgrey h
                    · exact hcr h
                  · obtain ⟨p, hp, hreach⟩ := hΔ1reach y hyΔ
                    have hcy : Reach g b y :=
                      (Relation.ReflTransGen.single (mem_setList.1 hp)).trans hreach
                    exact hacyc b (Relation.TransGen.tail' hcy hb)
                · exact Or.inr (Or.inl hgrey')
              · exact Or.inr (Or.inr hroot')
            · -- y = c itself: all its blockers were just visited
              rcases List.mem_singleton.1 hy with rfl
              have hbV1 : b ∈ st1.1 := jC3 b (mem_setList.2 hb)
              rcases jC6 b hbV1 with hbR1 | hbgrey' | hbroot
              · refine Or.inl ⟨List.mem_append_left _ hbR1, ?_⟩
                rw [List.indexOf_append_of_mem hbR1,
                  List.indexOf_append_of_not_mem hcR1]
                have : st1.2.indexOf b < st1.2.length := List.indexOf_lt_length.2 hbR1
                simp only [List.indexOf_cons_self]
                omega
              · rcases Finset.mem_insert.1 hbgrey' with rfl | hbgrey'
                · exact absurd (Relation.TransGen.single hb) (hacyc b)
                · exact Or.inr (Or.inl hbgrey')
              · exact Or.inr (Or.inr hbroot)
          have ih2 := ih cs st1.1 (st1.2 ++ [c]) grey
            (hfuel2 st1.1 jC1)
            (fun p hp => hpend p (List.mem_cons_of_mem _ hp))
            (fun x hx => hsubV1 x (hgreyV x hx))
            (by
              intro x hx hmem
              rcases List.mem_append.1 hmem with h | h
              · exact jC5 x (Finset.mem_insert_of_mem hx) h
              · rcases List.mem_singleton.1 h with rfl
                exact hcgrey hx)
            (fun gr hgr p hp => hgreyReach gr hgr p (List.mem_cons_of_mem _ hp))
            (by
              intro y hy
              rcases List.mem_append.1 hy with h | h
              · exact jC4 y h
              · rcases List.mem_singleton.1 h with rfl
                exact hcV1)
            (by
              intro v hv
              rcases jC6 v hv with h | h | h
              · exact Or.inl (List.mem_append_left _ h)
              · rcases Finset.mem_insert.1 h with rfl | h
                · exact Or.inl (List.mem_append_right _ (List.mem_singleton_self _))
                · exact Or.inr (Or.inl h)
              · exact Or.inr (Or.inr h))
            hnodup2
            (by
              intro hmem
              rcases List.mem_append.1 hmem with h | h
              · exact jC8 h
              · exact hcr (List.mem_singleton.1 h).symm)
            hinv2
          obtain ⟨kC1, ⟨Δ2, hΔ2eq, hΔ2V, hΔ2reach, hΔ2root⟩, kC3, kC4, kC5, kC6, kC7, kC8, kC9⟩ := ih2
          refine ⟨fun v hv => kC1 v (hsubV1 v hv),
            ⟨Δ1 ++ [c] ++ Δ2, ?_, ?_, ?_, ?_⟩, ?_, kC4, kC5, kC6, kC7, kC8, kC9⟩
          · rw [hΔ2eq, hΔ1eq]
            simp [List.append_assoc]
          · intro d hd
            rcases List.mem_append.1 hd with hd | hd
            · rcases List.mem_append.1 hd with hd | hd
              · exact fun hmem => hΔ1V d hd (Finset.mem_insert_of_mem hmem)
              · rcases List.mem_singleton.1 hd with rfl
                exact hc
            · exact fun hmem => hΔ2V d hd (hsubV1 d hmem)
          · intro d hd
            rcases List.mem_append.1 hd with hd | hd
            · rcases List.mem_append.1 hd with hd | hd
              · obtain ⟨p, hp, hreach⟩ := hΔ1reach d hd
                exact ⟨c, List.mem_cons_self _ _,
                  (Relation.ReflTransGen.single (mem_setList.1 hp)).trans hreach⟩
              · rcases List.mem_singleton.1 hd with rfl
                exact ⟨d, List.mem_cons_self _ _, Relation.ReflTransGen.refl⟩
            · obtain ⟨p, hp, hreach⟩ := hΔ2reach d hd
              exact ⟨p, List.mem_cons_of_mem _ hp, hreach⟩
          · intro d hd
            rcases List.mem_append.1 hd with hd | hd
            · rcases List.mem_append.1 hd with hd | hd
              · exact hΔ1root d hd
              · rcases List.mem_singleton.1 hd with rfl
                exact hcr
            · exact hΔ2root d hd
          · intro p hp
            rcases List.mem_cons.1 hp with rfl | hp
            · exact kC1 p hcV1
            · exact kC3 p hp

/-- Main property of `get_transitive_blockers` on an acyclic closed graph:
the queried id is never listed, and every listed node's transitive blockers
that are listed appear strictly earlier. -/
lemma get_transitive_blockers_spec (g : DependencyGraph) (issue_id : String)
    (hcl : GraphClosed g) (hacyc : ∀ x, ¬ Relation.TransGen (gStep g) x x) :
    issue_id ∉ g.get_transitive_blockers issue_id ∧
    ∀ x ∈ g.get_transitive_blockers issue_id, ∀ y ∈ g.get_transitive_blockers issue_id,
      Relation.TransGen (gStep g) y x →
        (g.get_transitive_blockers issue_id).indexOf x <
          (g.get_transitive_blockers issue_id).indexOf y := by
  have hspec := dfsGo_spec g issue_id hcl hacyc
    ((insert issue_id g.univ).card * ((insert issue_id g.univ).card + 2) + 2)
    [issue_id] ∅ [] ∅
    (by
      simp only [Finset.sdiff_empty, List.length_cons, List.length_nil]
      exact Nat.le_of_eq (by ring))
    (by
      intro p hp
      rcases List.mem_cons.1 hp with rfl | hp
      · exact Finset.mem_insert_self _ _
      · exact absurd hp (List.not_mem_nil p))
    (by intro x hx; exact absurd hx (Finset.not_mem_empty x))
    (by intro x hx; exact absurd hx (Finset.not_mem_empty x))
    (by intro gr hgr; exact absurd hgr (Finset.not_mem_empty gr))
    (by intro y hy; exact absurd hy (List.not_mem_nil y))
    (by intro v hv; exact absurd hv (Finset.not_mem_empty v))
    List.nodup_nil (List.not_mem_nil _)
    (by intro y hy; exact absurd hy (List.not_mem_nil y))
  obtain ⟨-, ⟨Δ, hΔeq, -, hΔreach, -⟩, -, -, -, -, -, hC8, hC9⟩ := hspec
  have hres : g.get_transitive_blockers issue_id =
      (dfsGo g issue_id
        ((insert issue_id g.univ).card * ((insert issue_id g.univ).card + 2) + 2)
        [issue_id] (∅, [])).2 := rfl
  set res := (dfsGo g issue_id
    ((insert issue_id g.univ).card * ((insert issue_id g.univ).card + 2) + 2)
    [issue_id] (∅, [])).2 with hresdef
  rw [List.nil_append] at hΔeq
  have hreach_root : ∀ d ∈ res, Reach g issue_id d := by
    intro d hd
    obtain ⟨p, hp, hreach⟩ := hΔreach d (hΔeq ▸ hd)
    rcases List.mem_cons.1 hp with rfl | hp
    · exact hreach
    · exact absurd hp (List.not_mem_nil p)
  have haux : ∀ y ∈ res, ∀ b ∈ g.blocked_by y, b ∈ res ∧ res.indexOf b < res.indexOf y := by
    intro y hy b hb
    rcases hC9 y hy b hb with h | h | h
    · exact h
    · exact absurd h (Finset.not_mem_empty b)
    · subst h
      exact absurd (Relation.TransGen.tail' (hreach_root y hy) hb) (hacyc b)
  have horder : ∀ x y, y ∈ res → Relation.TransGen (gStep g) y x →
      x ∈ res ∧ res.indexOf x < res.indexOf y := by
    intro x y hy htg
    induction htg with
    | single h => exact haux y hy _ h
    | tail hT hstep ih =>
      obtain ⟨hbmem, hblt⟩ := ih
      obtain ⟨hxmem, hxlt⟩ := haux _ hbmem _ hstep
      exact ⟨hxmem, lt_trans hxlt hblt⟩
  rw [hres]
  exact ⟨hC8, fun x _ y hy htg => (horder x y hy htg).2⟩

end TransitiveBlockers

section Service

/-- The two error kinds of `service.py` (`IssueNotFoundError`,
`DependencyError`), with the Python message reduced to the offending id. -/
inductive ServiceError where
  | issueNotFound (issue_id : String)
  | dependencyError (issue_id : String)
deriving DecidableEq, Repr

/-- `MarkdownStorage.read_issue`: look up the issue file for an id. -/
def read_issue (store : List Issue) (issue_id : String) : Option Issue :=
  store.find? (fun i => i.id = issue_id)

/-- `MarkdownStorage.write_issue`: upsert by id — the storage keeps exactly
one file per issue id, so writing overwrites the file with that id or creates
a new one. -/
def write_issue (store : List Issue) (issue : Issue) : List Issue :=
  if store.any (fun i => i.id = issue.id) then
    store.map (fun i => if i.id = issue.id then issue else i)
  else
    store ++ [issue]

/-- `IssueService.update_issue`: stamp `updated_at` and persist.  The Python
method mutates the very object the caller goes on to return, so the updated
record is returned alongside the new store. -/
def update_issue (store : List Issue) (issue : Issue) (now : Nat) :
    List Issue × Issue :=
  let issue' := { issue with updated_at := now }
  (write_issue store issue', issue')

/-- `IssueService.close_issue` exactly as in the source: set status CLOSED,
overwrite `closed_at` unconditionally, persist, and return only the closed
issue. -/
def close_issue (store : List Issue) (issue_id : String) (now : Nat) :
    Except ServiceError (List Issue × Issue) :=
  match read_issue store issue_id with
  | none => Except.error (ServiceError.issueNotFound issue_id)
  | some issue =>
    let issue' := { issue with status := Status.CLOSED, closed_at := some now }
    Except.ok (update_issue store issue' now)

/-- `IssueService.update_issue_status`: set the given status, stamping
`closed_at` only when transitioning to CLOSED with no close time recorded. -/
def update_issue_status (store : List Issue) (issue_id : String)
    (new_status : Status) (now : Nat) : Except ServiceError (List Issue × Issue) :=
  match read_issue store issue_id with
  | none => Except.error (ServiceError.issueNotFound issue_id)
  | some issue =>
    let issue1 := { issue with status := new_status }
    let issue2 := if new_status = Status.CLOSED ∧ issue1.closed_at = none then
        { issue1 with closed_at := some now }
      else issue1
    Except.ok (update_issue store issue2 now)

/-- `IssueService.add_dependency`.  The service's `_get_graph` returns the
cached graph, which is invalidated on every mutation, so at this point it is
always `build` of the current store. -/
def add_dependency (store : List Issue) (issue_id blocked_by_id : String)
    (now : Nat) : Except ServiceError (List Issue) :=
  match read_issue store issue_id with
  | none => Except.error (ServiceError.issueNotFound issue_id)
  | some issue =>
    if (read_issue store blocked_by_id).isNone then
      Except.error (ServiceError.issueNotFound blocked_by_id)
    else if (DependencyGraph.build store).detect_cycle issue_id blocked_by_id then
      Except.error (ServiceError.dependencyError issue_id)
    else if blocked_by_id ∈ issue.blocked_by then
      Except.ok store
    else
      Except.ok (update_issue store
        { issue with blocked_by := issue.blocked_by ++ [blocked_by_id] } now).1

/-- `IssueService.remove_dependency`: Python `list.remove` deletes the first
occurrence, which is `List.erase`; a missing blocker id is a silent no-op. -/
def remove_dependency (store : List Issue) (issue_id blocked_by_id : String)
    (now : Nat) : Except ServiceError (List Issue) :=
  match read_issue store issue_id with
  | none => Except.error (ServiceError.issueNotFound issue_id)
  | some issue =>
    if blocked_by_id ∈ issue.blocked_by then
      Except.ok (update_issue store
        { issue with blocked_by := issue.blocked_by.erase blocked_by_id } now).1
    else
      Except.ok store

/-- `IssueService.create_issue`.  `generate_id()` draws a random id, embedded
as the explicit `new_id` argument; the `blocked_by`/`parent` existence checks
precede any write. -/
def create_issue (store : List Issue) (new_id title : String) (priority : Nat)
    (description : String) (labels blocked_by : List String)
    (parent : Option String) (now : Nat) :
    Except ServiceError (List Issue × Issue) :=
  if blocked_by.any (fun d => (read_issue store d).isNone) then
    Except.error (ServiceError.dependencyError new_id)
  else if (match parent with
      | some p => (read_issue store p).isNone
      | none => false) then
    Except.error (ServiceError.dependencyError new_id)
  else
    let issue : Issue :=
      { id := new_id, title := title, priority := priority,
        description := description, labels := labels, blocked_by := blocked_by,
        parent := parent, created_at := now, updated_at := now }
    Except.ok (write_issue store issue, issue)

/-- Python's `sorted(ready, key=lambda i: (i.priority, i.created_at))`
comparison: lexicographic on the key tuple. -/
def issueLE (a b : Issue) : Bool :=
  a.priority < b.priority ∨ (a.priority = b.priority ∧ a.created_at ≤ b.created_at)

/-- `IssueService.get_ready_issues`.  The Python guards are truthiness tests:
`if labels:` skips filtering for `None` and for `[]`, and `if limit:` skips
truncation for `None` and for `0` (the `limit` int is modelled as `Nat`;
callers pass `None` or a positive count).  Sorting is Python's stable
`sorted`, embedded as `mergeSort` on the same key. -/
def get_ready_issues (store : List Issue) (labels : Option (List String))
    (limit : Option Nat) : List Issue :=
  let open_issues := store.filter (fun i => i.is_open)
  let ready := (DependencyGraph.build store).get_unblocked open_issues
  let ready1 := match labels with
    | some ls =>
      if ls.isEmpty then ready
      else ready.filter (fun (i : Issue) => (ls.toFinset ∩ i.labels.toFinset).Nonempty)
    | none => ready
  let ready2 := ready1.mergeSort issueLE
  match limit with
  | some n => if n = 0 then ready2 else ready2.take n
  | none => ready2

/-- The ready-queue pipeline exactly as the specification words it (label
filtering applied whenever labels are given, truncation whenever a limit is
given), for comparison with `get_ready_issues`. -/
def getReadyIssuesClaim (store : List Issue) (labels : Option (List String))
    (limit : Option Nat) : List Issue :=
  let open_issues := store.filter (fun i => i.is_open)
  let ready := (DependencyGraph.build store).get_unblocked open_issues
  let ready1 := match labels with
    | some ls => ready.filter (fun (i : Issue) => (ls.toFinset ∩ i.labels.toFinset).Nonempty)
    | none => ready
  let ready2 := ready1.mergeSort issueLE
  match limit with
  | some n => ready2.take n
  | none => ready2

/-- Modelled from the spec: the newly-unblocked set that `CloseIssue` must
determine and return, which the source's `close_issue` does not compute.  Per
the spec it is the difference of the `GetUnblocked` ready sets over the open
issues before and after the close. -/
def newly_unblocked_spec (store : List Issue) (issue_id : String) (now : Nat) :
    List Issue :=
  let readyBefore := (DependencyGraph.build store).get_unblocked
    (store.filter (fun i => i.is_open))
  match close_issue store issue_id now with
  | Except.error _ => []
  | Except.ok (store', _) =>
    let readyAfter := (DependencyGraph.build store').get_unblocked
      (store'.filter (fun i => i.is_open))
    readyAfter.filter (fun i => !(readyBefore.any (fun j => j.id = i.id)))

end Service

section StorageLemmas

/-- A successful lookup returns a stored issue carrying the looked-up id. -/
lemma read_issue_some {store : List Issue} {x : String} {issue : Issue}
    (h : read_issue store x = some issue) : issue.id = x ∧ issue ∈ store := by
  unfold read_issue at h
  have h1 := List.find?_some h
  simp only [decide_eq_true_eq] at h1
  exact ⟨h1, List.mem_of_find?_eq_some h⟩

/-- With unique ids, any stored issue with the looked-up id is the one the
lookup returns. -/
lemma read_issue_unique {store : List Issue} (hnodup : (store.map Issue.id).Nodup)
    {x : String} {issue i : Issue} (h : read_issue store x = some issue)
    (hi : i ∈ store) (hid : i.id = x) : i = issue := by
  obtain ⟨hid', hmem⟩ := read_issue_some h
  exact List.inj_on_of_nodup_map hnodup hi hmem (by rw [hid, hid'])

lemma find?_map_replace (store : List Issue) (issue : Issue) :
    (store.map (fun i => if i.id = issue.id then issue else i)).find?
        (fun i => i.id = issue.id) =
      if store.any (fun i => i.id = issue.id) then some issue else none := by
  induction store with
  | nil => rfl
  | cons hd tl ih =>
    by_cases h : hd.id = issue.id
    · simp [List.find?_cons, h]
    · simp only [List.map_cons, List.find?_cons, List.any_cons]
      rw [if_neg h] at *
      simp only [h, decide_False, Bool.false_or]
      simpa [h] using ih

/-- Reading back the id just written returns the written issue. -/
lemma read_write_self (store : List Issue) (issue : Issue) :
    read_issue (write_issue store issue) issue.id = some issue := by
  unfold write_issue read_issue
  by_cases hany : store.any (fun i => i.id = issue.id) = true
  · rw [if_pos hany, find?_map_replace, if_pos hany]
  · rw [if_neg hany, List.find?_append]
    have hnone : store.find? (fun i => i.id = issue.id) = none := by
      rw [List.find?_eq_none]
      intro x hx hpx
      exact hany (List.any_eq_true.2 ⟨x, hx, hpx⟩)
    simp [hnone]

lemma find?_map_replace_ne (store : List Issue) (issue : Issue) (x : String)
    (hx : x ≠ issue.id) :
    (store.map (fun i => if i.id = issue.id then issue else i)).find?
        (fun i => i.id = x) = store.find? (fun i => i.id = x) := by
  induction store with
  | nil => rfl
  | cons hd tl ih =>
    by_cases h : hd.id = issue.id
    · have h1 : ¬ (issue.id = x) := fun h' => hx h'.symm
      have h2 : ¬ (hd.id = x) := fun h' => hx (h ▸ h').symm
      simp only [List.map_cons, List.find?_cons, if_pos h,
        decide_eq_false h1, decide_eq_false h2]
      exact ih
    · simp only [List.map_cons, List.find?_cons, if_neg h]
      by_cases h2 : hd.id = x
      · simp [h2]
      · simp only [decide_eq_false h2]
        exact ih

/-- Writing one issue leaves every other id's lookup unchanged. -/
lemma read_write_ne (store : List Issue) (issue : Issue) (x : String)
    (hx : x ≠ issue.id) : read_issue (write_issue store issue) x = read_issue store x := by
  unfold write_issue read_issue
  by_cases hany : store.any (fun i => i.id = issue.id) = true
  · rw [if_pos hany]
    exact find?_map_replace_ne store issue x hx
  · rw [if_neg hany, List.find?_append]
    have h1 : ¬ (issue.id = x) := fun h' => hx h'.symm
    cases hfind : store.find? (fun i => i.id = x) with
    | none => simp [h1]
    | some j => simp

/-- Membership after an upsert that replaced an existing file. -/
lemma mem_write_issue_replace {store : List Issue} {issue : Issue}
    (hany : store.any (fun i => i.id = issue.id) = true) (j : Issue) :
    j ∈ write_issue store issue ↔ (j ∈ store ∧ j.id ≠ issue.id) ∨ j = issue := by
  unfold write_issue
  rw [if_pos hany]
  simp only [List.mem_map]
  constructor
  · rintro ⟨i, hi, rfl⟩
    by_cases h : i.id = issue.id
    · simp [h]
    · rw [if_neg h]
      exact Or.inl ⟨hi, h⟩
  · rintro (⟨hj, hne⟩ | rfl)
    · exact ⟨j, hj, by rw [if_neg hne]⟩
    · obtain ⟨i, hi, hid⟩ := List.any_eq_true.1 hany
      exact ⟨i, hi, by rw [if_pos (of_decide_eq_true hid)]⟩

/-- An upsert of a fresh id appends the new file. -/
lemma write_issue_append {store : List Issue} {issue : Issue}
    (hnone : read_issue store issue.id = none) :
    write_issue store issue = store ++ [issue] := by
  unfold write_issue
  rw [if_neg]
  intro hany
  obtain ⟨i, hi, hid⟩ := List.any_eq_true.1 hany
  unfold read_issue at hnone
  rw [List.find?_eq_none] at hnone
  exact hnone i hi hid

end StorageLemmas

section AddDependencyLemmas

open DependencyGraph

/-- Appending one blocker to one stored issue and upserting grows the edge
relation by exactly that edge (ids unique). -/
lemma gStep_write_append {store : List Issue} (hnodup : (store.map Issue.id).Nodup)
    {iid bid : String} {issue : Issue} (hread : read_issue store iid = some issue)
    {issue1 : Issue} (hid : issue1.id = iid)
    (hbb : issue1.blocked_by = issue.blocked_by ++ [bid]) (a b : String) :
    gStep (build (write_issue store issue1)) a b ↔
      gStep (build store) a b ∨ (a = iid ∧ b = bid) := by
  obtain ⟨hiid, hmem⟩ := read_issue_some hread
  have hany : store.any (fun i => i.id = issue1.id) = true :=
    List.any_eq_true.2 ⟨issue, hmem, by simp [hiid, hid]⟩
  unfold gStep
  rw [build_blocked_by_mem, build_blocked_by_mem]
  constructor
  · rintro ⟨i, hi, hia, hb⟩
    rcases (mem_write_issue_replace hany i).1 hi with ⟨hiS, hne⟩ | rfl
    · exact Or.inl ⟨i, hiS, hia, hb⟩
    · rw [hbb] at hb
      rcases List.mem_append.1 hb with hb | hb
      · refine Or.inl ⟨issue, hmem, ?_, hb⟩
        rw [hiid, ← hid]
        exact hia
      · rcases List.mem_singleton.1 hb with rfl
        refine Or.inr ⟨?_, rfl⟩
        rw [← hia, hid]
  · rintro (⟨i, hi, hia, hb⟩ | ⟨rfl, rfl⟩)
    · by_cases h : i.id = issue1.id
      · have hieq : i = issue :=
          read_issue_unique hnodup hread hi (by rw [h, hid])
        subst hieq
        refine ⟨issue1, (mem_write_issue_replace hany issue1).2 (Or.inr rfl), ?_, ?_⟩
        · rw [hid, ← hiid]
          exact hia
        · rw [hbb]
          exact List.mem_append_left _ hb
      · exact ⟨i, (mem_write_issue_replace hany i).2 (Or.inl ⟨hi, h⟩), hia, hb⟩
    · refine ⟨issue1, (mem_write_issue_replace hany issue1).2 (Or.inr rfl), hid, ?_⟩
      rw [hbb]
      exact List.mem_append_right _ (List.mem_singleton_self _)

/-- Adding the edge `iid → bid` cannot create a path from `bid` to `iid` that
did not already exist: any such path would have to pass through `iid` first,
at which point the target is already reached. -/
lemma reach_preserved_of_new_edge {g g' : DependencyGraph} {iid bid : String}
    (hstep : ∀ a b, gStep g' a b ↔ gStep g a b ∨ (a = iid ∧ b = bid))
    {x : String} (h : Relation.ReflTransGen (gStep g') x iid) :
    Relation.ReflTransGen (gStep g) x iid := by
  induction h using Relation.ReflTransGen.head_induction_on with
  | refl => exact Relation.ReflTransGen.refl
  | head hab _ ih =>
    rcases (hstep _ _).1 hab with h' | ⟨rfl, -⟩
    · exact Relation.ReflTransGen.head h' ih
    · exact Relation.ReflTransGen.refl

end AddDependencyLemmas

section AddDependencyTwice

open DependencyGraph

/-- Two identical `add_dependency` calls on a cycle-free pair of existing
issues: both succeed, the second is a no-op, and afterwards the blocker id
appears exactly once — provided it appeared at most once beforehand. -/
lemma add_dependency_twice {store : List Issue} {iid bid : String} {issue : Issue}
    (hnodup : (store.map Issue.id).Nodup)
    (hread : read_issue store iid = some issue)
    (hbid : (read_issue store bid).isSome = true)
    (hnocy : (DependencyGraph.build store).detect_cycle iid bid = false)
    (hcount : issue.blocked_by.count bid ≤ 1) (now1 now2 : Nat) :
    ∃ store1, add_dependency store iid bid now1 = Except.ok store1 ∧
      add_dependency store1 iid bid now2 = Except.ok store1 ∧
      ∃ issue1, read_issue store1 iid = some issue1 ∧
        issue1.blocked_by.count bid = 1 := by
  obtain ⟨blocker, hblocker⟩ := Option.isSome_iff_exists.1 hbid
  by_cases hmem : bid ∈ issue.blocked_by
  · refine ⟨store, ?_, ?_, issue, hread, ?_⟩
    · simp [add_dependency, hread, hblocker, hnocy, hmem]
    · simp [add_dependency, hread, hblocker, hnocy, hmem]
    · have hpos : 0 < issue.blocked_by.count bid := List.count_pos_iff.2 hmem
      omega
  · set issue1 : Issue :=
      { issue with blocked_by := issue.blocked_by ++ [bid], updated_at := now1 }
      with hissue1
    have hid1 : issue1.id = iid := (read_issue_some hread).1
    have hneq : bid ≠ iid := by
      intro h
      subst h
      rw [detect_cycle_self _ (build_closed store) bid] at hnocy
      exact absurd hnocy (by simp)
    set store1 := write_issue store issue1 with hstore1
    have hfirst : add_dependency store iid bid now1 = Except.ok store1 := by
      simp [add_dependency, hread, hblocker, hnocy, hmem, update_issue,
        hstore1, hissue1]
    have hread1 : read_issue store1 iid = some issue1 := by
      rw [hstore1, ← hid1]
      exact read_write_self store issue1
    have hbid1 : read_issue store1 bid = some blocker := by
      rw [hstore1, read_write_ne store issue1 bid (by rw [hid1]; exact hneq)]
      exact hblocker
    have hstep := gStep_write_append hnodup hread hid1
      (rfl : issue1.blocked_by = issue.blocked_by ++ [bid])
    have hnocy1 : (build store1).detect_cycle iid bid = false := by
      cases hdc : (build store1).detect_cycle iid bid with
      | false => rfl
      | true =>
        have hr1 : Reach (build store1) bid iid :=
          (detect_cycle_iff _ (build_closed _) _ _).1 hdc
        have hr0 : Relation.ReflTransGen (gStep (build store)) bid iid :=
          reach_preserved_of_new_edge hstep hr1
        have hcyc : (build store).detect_cycle iid bid = true :=
          (detect_cycle_iff _ (build_closed _) _ _).2 hr0
        rw [hnocy] at hcyc
        exact absurd hcyc (by simp)
    have hmem1 : bid ∈ issue1.blocked_by :=
      List.mem_append_right _ (List.mem_singleton_self _)
    have hsecond : add_dependency store1 iid bid now2 = Except.ok store1 := by
      simp [add_dependency, hread1, hbid1, hnocy1, hmem1]
    refine ⟨store1, hfirst, hsecond, issue1, hread1, ?_⟩
    show (issue.blocked_by ++ [bid]).count bid = 1
    rw [List.count_append, List.count_eq_zero.2 hmem, List.count_singleton_self]

end AddDependencyTwice

section ClaimFixtures

/-- An open issue with no blockers. -/
def issueA : Issue := { id := "a", title := "A" }

/-- An open issue blocked by `issueA`. -/
def issueB : Issue := { id := "b", title := "B", blocked_by := ["a"] }

/-- An open issue with no blockers, used as a dependency target. -/
def issueB0 : Issue := { id := "b", title := "B" }

/-- An already-closed issue whose close timestamp is 3. -/
def issueC : Issue :=
  { id := "a", title := "A", status := Status.CLOSED, closed_at := some 3 }

/-- A ready issue carrying one label. -/
def issueL : Issue := { id := "l", title := "L", labels := ["x"] }

/-- An issue whose only blocker reference is dangling. -/
def issueX : Issue := { id := "x", title := "X", blocked_by := ["d"] }

/-- An issue listing the same blocker twice. -/
def issueBB : Issue := { id := "b", title := "B", blocked_by := ["a", "a"] }

/-- The last link of the chain `c` blocked by `b` blocked by `a`. -/
def issueC3 : Issue := { id := "c", title := "C", blocked_by := ["b"] }

/-- A graph whose edges strictly decrease some rank has no cycles. -/
lemma no_cycle_of_rank {g : DependencyGraph} (f : String → Nat)
    (hf : ∀ a b, gStep g a b → f b < f a) (x : String) :
    ¬ Relation.TransGen (gStep g) x x := by
  intro h
  have hlt : ∀ {a b : String}, Relation.TransGen (gStep g) a b → f b < f a := by
    intro a b hab
    induction hab with
    | single h1 => exact hf _ _ h1
    | tail _ h2 ih => exact lt_trans (hf _ _ h2) ih
  exact lt_irrefl (f x) (hlt h)

/-- The chain store's graph keeps its edge targets inside `univ`. -/
lemma chain_closed : GraphClosed (DependencyGraph.build [issueA, issueB, issueC3]) := by
  intro x b hb
  rw [build_blocked_by_mem] at hb
  obtain ⟨i, hi, -, hbb⟩ := hb
  rcases List.mem_cons.1 hi with rfl | hi
  · exact absurd hbb (List.not_mem_nil b)
  rcases List.mem_cons.1 hi with rfl | hi
  · rcases List.mem_singleton.1 hbb with rfl
    decide
  rcases List.mem_cons.1 hi with rfl | hi
  · rcases List.mem_singleton.1 hbb with rfl
    decide
  exact absurd hi (List.not_mem_nil i)

/-- The chain graph is acyclic: each edge strictly decreases the rank
`c ↦ 2, b ↦ 1, _ ↦ 0`. -/
lemma chain_acyclic (x : String) :
    ¬ Relation.TransGen (gStep (DependencyGraph.build [issueA, issueB, issueC3])) x x := by
  apply no_cycle_of_rank (fun s => if s = "c" then 2 else if s = "b" then 1 else 0)
  intro a b hab
  rw [gStep, build_blocked_by_mem] at hab
  obtain ⟨i, hi, hid, hbb⟩ := hab
  rcases List.mem_cons.1 hi with rfl | hi
  · exact absurd hbb (List.not_mem_nil b)
  rcases List.mem_cons.1 hi with rfl | hi
  · rcases List.mem_singleton.1 hbb with rfl
    rw [← hid]
    decide
  rcases List.mem_cons.1 hi with rfl | hi
  · rcases List.mem_singleton.1 hbb with rfl
    rw [← hid]
    decide
  exact absurd hi (List.not_mem_nil i)

end ClaimFixtures

section ClaimTheorems

open DependencyGraph

/-- C1: an issue from the list passed to `get_unblocked` (with the graph
built from the same list, ids unique) appears in the result iff it is open,
not status-BLOCKED, and none of its `blocked_by` ids is the id of an open
issue in that list — so a closed blocker no longer blocks. -/
theorem C1_get_unblocked_membership (issues : List Issue) (issue : Issue)
    (hnodup : (issues.map Issue.id).Nodup) (hmem : issue ∈ issues) :
    issue ∈ (build issues).get_unblocked issues ↔
      issue.is_open = true ∧ issue.status ≠ Status.BLOCKED ∧
        ∀ b ∈ issue.blocked_by, ¬ ∃ j ∈ issues, j.is_open = true ∧ j.id = b :=
  get_unblocked_build_iff issues issue hnodup hmem

/-- Witness for C1 at the two-issue fixture: `issueB` is in the list, and the
equivalence holds for it (its blocker `issueA` is open, so it is excluded). -/
theorem C1_get_unblocked_membership_witness :
    ([issueA, issueB].map Issue.id).Nodup ∧ issueB ∈ [issueA, issueB] ∧
      (issueB ∈ (build [issueA, issueB]).get_unblocked [issueA, issueB] ↔
        issueB.is_open = true ∧ issueB.status ≠ Status.BLOCKED ∧
          ∀ b ∈ issueB.blocked_by,
            ¬ ∃ j ∈ [issueA, issueB], j.is_open = true ∧ j.id = b) :=
  ⟨by decide, by decide,
    C1_get_unblocked_membership [issueA, issueB] issueB (by decide) (by decide)⟩

/-- C2: on every built graph, `detect_cycle from_id to_id` returns true iff
`from_id` is reachable from `to_id` along `blocked_by` edges, reflexively and
transitively — in particular `detect_cycle a a` is always true, while a
diamond (two parallel paths, no returning edge) is not reported. -/
theorem C2_detect_cycle_iff_reachable (issues : List Issue) (from_id to_id : String) :
    (build issues).detect_cycle from_id to_id = true ↔
      Relation.ReflTransGen (gStep (build issues)) to_id from_id :=
  detect_cycle_iff (build issues) (build_closed issues) from_id to_id

/-- C4: after `build`, the two adjacency maps are exact transposes. -/
theorem C4_blocks_transpose (issues : List Issue) (x y : String) :
    x ∈ (build issues).get_blocked_by_this y ↔ y ∈ (build issues).get_blockers x := by
  unfold DependencyGraph.get_blocked_by_this DependencyGraph.get_blockers
  rw [build_blocks_mem, build_blocked_by_mem]

/-- C5: on an acyclic graph (with the dict-finiteness carrier intact),
`get_transitive_blockers id` never contains `id`, and every listed element
precedes every listed element it transitively blocks. -/
theorem C5_transitive_blockers_topological (g : DependencyGraph) (issue_id : String)
    (hcl : GraphClosed g)
    (hacyc : ∀ x, ¬ Relation.TransGen (gStep g) x x) :
    issue_id ∉ g.get_transitive_blockers issue_id ∧
      ∀ x ∈ g.get_transitive_blockers issue_id,
        ∀ y ∈ g.get_transitive_blockers issue_id,
          Relation.TransGen (gStep g) y x →
            (g.get_transitive_blockers issue_id).indexOf x <
              (g.get_transitive_blockers issue_id).indexOf y :=
  get_transitive_blockers_spec g issue_id hcl hacyc

/-- Witness for C5 at the chain store `a ← b ← c`, whose graph is closed and
acyclic. -/
theorem C5_transitive_blockers_topological_witness :
    GraphClosed (build [issueA, issueB, issueC3]) ∧
      (∀ x, ¬ Relation.TransGen (gStep (build [issueA, issueB, issueC3])) x x) ∧
      ("c" ∉ (build [issueA, issueB, issueC3]).get_transitive_blockers "c" ∧
        ∀ x ∈ (build [issueA, issueB, issueC3]).get_transitive_blockers "c",
          ∀ y ∈ (build [issueA, issueB, issueC3]).get_transitive_blockers "c",
            Relation.TransGen (gStep (build [issueA, issueB, issueC3])) y x →
              ((build [issueA, issueB, issueC3]).get_transitive_blockers "c").indexOf x <
                ((build [issueA, issueB, issueC3]).get_transitive_blockers "c").indexOf y) :=
  ⟨chain_closed, chain_acyclic,
    C5_transitive_blockers_topological (build [issueA, issueB, issueC3]) "c"
      chain_closed chain_acyclic⟩

/-- C8 counterexample: with one issue `x` blocked by the nonexistent id `d`,
the edge is recorded in `blocked_by`, but — contrary to the claim — the
dangling id `d` does get an entry in `blocks` (namely `{x}`). -/
theorem C8_counterexample :
    "d" ∈ (build [issueX]).blocked_by "x" ∧
      (build [issueX]).blocks "d" ≠ ∅ := by
  constructor
  · rw [build_blocked_by_mem]
    exact ⟨issueX, by decide, rfl, by decide⟩
  · intro h
    have : "x" ∈ (build [issueX]).blocks "d" :=
      (build_blocks_mem [issueX] "x" "d").2 ⟨issueX, by decide, rfl, by decide⟩
    rw [h] at this
    exact absurd this (Finset.not_mem_empty _)

/-- C8 amended: a `blocked_by` reference to a nonexistent id raises no error
(`build` is total); the edge is recorded in `blockedBy` and, transposed,
under the dangling id in `blocks`; the dangling id itself is absent from
`all_ids`. -/
theorem C8_dangling_reference_amended (issues : List Issue) (issue : Issue)
    (d : String) (hmem : issue ∈ issues) (hd : d ∈ issue.blocked_by)
    (hdangling : ∀ i ∈ issues, i.id ≠ d) :
    d ∈ (build issues).blocked_by issue.id ∧
      issue.id ∈ (build issues).blocks d ∧
      d ∉ (build issues).all_ids := by
  refine ⟨(build_blocked_by_mem issues d issue.id).2 ⟨issue, hmem, rfl, hd⟩,
    (build_blocks_mem issues issue.id d).2 ⟨issue, hmem, rfl, hd⟩, ?_⟩
  intro hmem'
  obtain ⟨i, hi, hid⟩ := (build_all_ids_mem issues d).1 hmem'
  exact hdangling i hi hid

/-- Witness for C8 amended at the dangling-reference fixture. -/
theorem C8_dangling_reference_amended_witness :
    issueX ∈ [issueX] ∧ "d" ∈ issueX.blocked_by ∧
      (∀ i ∈ [issueX], i.id ≠ "d") ∧
      ("d" ∈ (build [issueX]).blocked_by issueX.id ∧
        issueX.id ∈ (build [issueX]).blocks "d" ∧
        "d" ∉ (build [issueX]).all_ids) :=
  ⟨by decide, by decide, by decide,
    C8_dangling_reference_amended [issueX] issueX "d" (by decide) (by decide)
      (by decide)⟩

end ClaimTheorems

lemma issueLE_trans (a b c : Issue) (h1 : issueLE a b = true)
    (h2 : issueLE b c = true) : issueLE a c = true := by
  simp only [issueLE, decide_eq_true_eq] at *
  omega

lemma issueLE_total (a b : Issue) : (issueLE a b || issueLE b a) = true := by
  simp only [issueLE, Bool.or_eq_true, decide_eq_true_eq]
  omega

/-- The ready queue is sorted by (priority ascending, creation ascending). -/
lemma get_ready_issues_pairwise (store : List Issue) (labels : Option (List String))
    (limit : Option Nat) :
    List.Pairwise (fun a b => issueLE a b = true) (get_ready_issues store labels limit) := by
  have hsorted : ∀ l : List Issue,
      List.Pairwise (fun a b => issueLE a b = true) (l.mergeSort issueLE) := by
    intro l
    exact @List.sorted_mergeSort Issue issueLE issueLE_trans issueLE_total l
  have htake : ∀ (l : List Issue) (n : Nat),
      List.Pairwise (fun a b => issueLE a b = true) l →
        List.Pairwise (fun a b => issueLE a b = true) (l.take n) :=
    fun l n h => h.sublist (List.take_sublist n l)
  unfold get_ready_issues
  cases labels with
  | none =>
    cases limit with
    | none => exact hsorted _
    | some n =>
      by_cases h : n = 0
      · simp only [h, if_pos rfl]
        exact hsorted _
      · simp only [if_neg h]
        exact htake _ _ (hsorted _)
  | some ls =>
    cases limit with
    | none => exact hsorted _
    | some n =>
      by_cases h : n = 0
      · simp only [h, if_pos rfl]
        exact hsorted _
      · simp only [if_neg h]
        exact htake _ _ (hsorted _)

/-- The two pipelines agree whenever the Python truthiness guards cannot
fire: labels, if given, nonempty; limit, if given, nonzero. -/
lemma get_ready_issues_eq_claim (store : List Issue) (labels : Option (List String))
    (limit : Option Nat) (hl : labels ≠ some []) (hn : limit ≠ some 0) :
    get_ready_issues store labels limit = getReadyIssuesClaim store labels limit := by
  unfold get_ready_issues getReadyIssuesClaim
  cases labels with
  | none =>
    cases limit with
    | none => rfl
    | some n =>
      have hn0 : ¬ (n = 0) := fun h => hn (by rw [h])
      simp [hn0]
  | some ls =>
    have he : ls.isEmpty = false := by
      cases ls with
      | nil => exact absurd rfl hl
      | cons a l => rfl
    cases limit with
    | none => simp [he]
    | some n =>
      have hn0 : ¬ (n = 0) := fun h => hn (by rw [h])
      simp [he, hn0]

section ClaimTheoremsService

open DependencyGraph

/-- C3: the failing input is the two-issue store where closing `a` unblocks
`b`.  The spec-modelled newly-unblocked set there is `[issueB]`, but the
source's `close_issue` computes no such set: it returns only the upserted
store and the closed issue record. -/
theorem C3_close_issue_missing_unblocked :
    newly_unblocked_spec [issueA, issueB] "a" 5 = [issueB] ∧
      (close_issue [issueA, issueB] "a" 5).toOption =
        some
          ([{ issueA with
                status := Status.CLOSED, closed_at := some 5, updated_at := 5 },
              issueB],
            { issueA with
                status := Status.CLOSED, closed_at := some 5, updated_at := 5 }) := by
  decide

/-- C6: re-closing an issue whose `closed_at` is already 3 at time 7:
`close_issue` overwrites the close timestamp to 7, while the guarded
`update_issue_status` path in the same file preserves the original 3. -/
theorem C6_close_issue_overwrites_closed_at :
    (close_issue [issueC] "a" 7).toOption.map (fun r => r.2.closed_at) =
        some (some 7) ∧
      (update_issue_status [issueC] "a" Status.CLOSED 7).toOption.map
          (fun r => r.2.closed_at) = some (some 3) := by
  decide

unseal List.merge List.mergeSort in
/-- C7 counterexample: with one ready labelled issue, calling with
`labels = some []` and `limit = some 0` returns the issue unchanged (both
Python guards are falsy), while the claim's pipeline filters on an empty
label set and truncates to zero, returning `[]`. -/
theorem C7_counterexample :
    get_ready_issues [issueL] (some []) (some 0) = [issueL] ∧
      getReadyIssuesClaim [issueL] (some []) (some 0) = [] := by
  decide

/-- C7 amended: `get_ready_issues` is the claim's pipeline — unblocked open
issues, label-intersection filter, stable sort by (priority, creation time),
truncation — whenever the given label list is nonempty and the given limit is
nonzero (Python truthiness treats `[]` and `0` like "not given"). -/
theorem C7_get_ready_issues_amended (store : List Issue)
    (labels : Option (List String)) (limit : Option Nat)
    (hl : labels ≠ some []) (hn : limit ≠ some 0) :
    get_ready_issues store labels limit = getReadyIssuesClaim store labels limit ∧
      List.Pairwise (fun a b => issueLE a b = true)
        (get_ready_issues store labels limit) :=
  ⟨get_ready_issues_eq_claim store labels limit hl hn,
    get_ready_issues_pairwise store labels limit⟩

/-- Witness for C7 amended with a nonempty label list and a nonzero limit. -/
theorem C7_get_ready_issues_amended_witness :
    (some ["x"] ≠ some ([] : List String)) ∧ (some 2 ≠ some 0) ∧
      (get_ready_issues [issueL] (some ["x"]) (some 2) =
          getReadyIssuesClaim [issueL] (some ["x"]) (some 2) ∧
        List.Pairwise (fun a b => issueLE a b = true)
          (get_ready_issues [issueL] (some ["x"]) (some 2))) :=
  ⟨by decide, by decide,
    C7_get_ready_issues_amended [issueL] (some ["x"]) (some 2) (by decide)
      (by decide)⟩

unseal List.merge List.mergeSort in
/-- C9 counterexample: starting from a store in which issue `b` already lists
blocker `a` twice (such a store is reachable: `create_issue` does not
deduplicate, see C10), both identical `add_dependency` calls succeed as
no-ops but `blocked_by` still contains the id twice, not exactly once. -/
theorem C9_counterexample :
    (add_dependency [issueA, issueBB] "b" "a" 1).toOption = some [issueA, issueBB] ∧
      (add_dependency [issueA, issueBB] "b" "a" 2).toOption = some [issueA, issueBB] ∧
      (read_issue [issueA, issueBB] "b").map (fun i => i.blocked_by.count "a") =
        some 2 := by
  decide

/-- C9 amended: for existing issues whose edge passes the cycle check, two
identical `add_dependency` calls succeed, the repeated call is a no-op, and
afterwards `blocked_by` contains the id exactly once — provided it contained
it at most once beforehand (duplicates survive, see the counterexample). -/
theorem C9_add_dependency_idempotent_amended {store : List Issue}
    {iid bid : String} {issue : Issue}
    (hnodup : (store.map Issue.id).Nodup)
    (hread : read_issue store iid = some issue)
    (hbid : (read_issue store bid).isSome = true)
    (hnocy : (build store).detect_cycle iid bid = false)
    (hcount : issue.blocked_by.count bid ≤ 1) (now1 now2 : Nat) :
    ∃ store1, add_dependency store iid bid now1 = Except.ok store1 ∧
      add_dependency store1 iid bid now2 = Except.ok store1 ∧
      ∃ issue1, read_issue store1 iid = some issue1 ∧
        issue1.blocked_by.count bid = 1 :=
  add_dependency_twice hnodup hread hbid hnocy hcount now1 now2

unseal List.merge List.mergeSort in
/-- Witness for C9 amended: issues `a` and `b` with no prior edge. -/
theorem C9_add_dependency_idempotent_amended_witness :
    ([issueA, issueB0].map Issue.id).Nodup ∧
      read_issue [issueA, issueB0] "b" = some issueB0 ∧
      (read_issue [issueA, issueB0] "a").isSome = true ∧
      (build [issueA, issueB0]).detect_cycle "b" "a" = false ∧
      issueB0.blocked_by.count "a" ≤ 1 ∧
      (∃ store1, add_dependency [issueA, issueB0] "b" "a" 1 = Except.ok store1 ∧
        add_dependency store1 "b" "a" 2 = Except.ok store1 ∧
        ∃ issue1, read_issue store1 "b" = some issue1 ∧
          issue1.blocked_by.count "a" = 1) :=
  ⟨by decide, by decide, by decide, by decide, by decide,
    C9_add_dependency_idempotent_amended (by decide)
      (show read_issue [issueA, issueB0] "b" = some issueB0 by decide)
      (by decide) (by decide) (by decide) 1 2⟩

/-- C10: `create_issue` persists a duplicated blocker list verbatim, and one
`remove_dependency` call drops only the first occurrence, leaving the issue
still blocked by the remaining one. -/
theorem C10_create_issue_keeps_duplicates (store : List Issue)
    (new_id title b : String) (priority : Nat) (description : String)
    (labels : List String) (now1 now2 : Nat)
    (hb : (read_issue store b).isSome = true)
    (hfresh : read_issue store new_id = none) :
    ∃ store1 issue,
      create_issue store new_id title priority description labels [b, b]
          none now1 = Except.ok (store1, issue) ∧
      issue.blocked_by = [b, b] ∧
      read_issue store1 new_id = some issue ∧
      ∃ store2, remove_dependency store1 new_id b now2 = Except.ok store2 ∧
        ∃ issue2, read_issue store2 new_id = some issue2 ∧
          issue2.blocked_by = [b] ∧ b ∈ issue2.blocked_by := by
  obtain ⟨blocker, hblocker⟩ := Option.isSome_iff_exists.1 hb
  set issue0 : Issue :=
    { id := new_id, title := title, priority := priority,
      description := description, labels := labels, blocked_by := [b, b],
      parent := none, created_at := now1, updated_at := now1 } with hissue0
  have hcreate : create_issue store new_id title priority description labels
      [b, b] none now1 = Except.ok (write_issue store issue0, issue0) := by
    simp [create_issue, hblocker, hissue0]
  have happend : write_issue store issue0 = store ++ [issue0] :=
    write_issue_append (by exact hfresh)
  have hread1 : read_issue (write_issue store issue0) new_id = some issue0 :=
    read_write_self store issue0
  set issue2 : Issue :=
    { issue0 with blocked_by := [b], updated_at := now2 } with hissue2
  have hremove : remove_dependency (write_issue store issue0) new_id b now2 =
      Except.ok (write_issue (write_issue store issue0) issue2) := by
    simp [remove_dependency, hread1, update_issue, hissue2, hissue0]
  have hread2 : read_issue (write_issue (write_issue store issue0) issue2)
      new_id = some issue2 :=
    read_write_self (write_issue store issue0) issue2
  exact ⟨write_issue store issue0, issue0, hcreate, rfl, hread1,
    write_issue (write_issue store issue0) issue2, hremove,
    issue2, hread2, rfl, List.mem_singleton_self b⟩

/-- Witness for C10 with a fresh id `"n"` and the existing blocker `"a"`
listed twice. -/
theorem C10_create_issue_keeps_duplicates_witness :
    (read_issue [issueA] "a").isSome = true ∧
      read_issue [issueA] "n" = none ∧
      (∃ store1 issue,
        create_issue [issueA] "n" "N" 2 "" [] ["a", "a"] none 1 =
            Except.ok (store1, issue) ∧
        issue.blocked_by = ["a", "a"] ∧
        read_issue store1 "n" = some issue ∧
        ∃ store2, remove_dependency store1 "n" "a" 2 = Except.ok store2 ∧
          ∃ issue2, read_issue store2 "n" = some issue2 ∧
            issue2.blocked_by = ["a"] ∧ "a" ∈ issue2.blocked_by) :=
  ⟨by decide, by decide,
    C10_create_issue_keeps_duplicates [issueA] "n" "N" "a" 2 "" [] 1 2
      (by decide) (by decide)⟩

end ClaimTheoremsService

end Weaver
